import Mathlib

/-!
Shallow embedding of `services/route_optimizer.py` (class
`AdvancedRouteOptimizer`) of the `sistemarutasyantzaza` repository, together
with proofs about the route-optimization pipeline.

Geographic points are pairs of rational coordinates.  The four numeric leaf
operations of the source that live on the floating-point / transcendental
boundary — `geopy.distance.geodesic` (inside `calculate_distance`), the
`acos`-based `calculate_angle`, the `math.sqrt` inside
`douglas_peucker_simplify`, and Python's `round` used by
`validate_optimization` — are modelled as explicit function parameters
(`d`, `ang`, `sq`, `rnd`); every theorem below quantifies over them.  All
control flow, list manipulation and exact arithmetic of the source is
embedded directly.
-/

namespace RouteOptimizer

/-- A GPS sample `(latitude, longitude)` in decimal degrees. -/
abbrev Point := ℚ × ℚ

/-- Type of the pairwise-distance oracle modelling `calculate_distance`
(geopy geodesic, in metres). -/
abbrev Dist := Point → Point → ℚ

/-- Type of the three-point turn-angle oracle modelling `calculate_angle`
(degrees; the source returns `0` on a zero-length vector). -/
abbrev Angle := Point → Point → Point → ℚ

/-- Type of the square-root oracle modelling `math.sqrt` inside
`douglas_peucker_simplify.perpendicular_distance`. -/
abbrev Sqrt := ℚ → ℚ

/-- Type of the rounding oracle modelling Python's `round(x, ndigits)`. -/
abbrev Rnd := ℚ → ℕ → ℚ

/-- Embedding of `calculate_total_distance`: `0` for fewer than two points,
else the sum of the distances of consecutive pairs. -/
def calculate_total_distance (d : Dist) (points : List Point) : ℚ :=
  if points.length < 2 then 0
  else (points.zip (points.drop 1)).foldl (fun acc pq => acc + d pq.1 pq.2) 0

/-- One iteration of the interior-point `while` loop of
`clean_route_advanced`.  `acc` is the `cleaned` list in reverse order (head =
most recently kept point, so acc is never `[]`); `cn` is the current interior
point paired with its successor in the raw input.  The source's guard
`len(cleaned) >= 1 and i < len(points) - 1` is always true at that program
point, so the angle test is always reached. -/
def cleanStep (d : Dist) (ang : Angle) (min_distance angle_threshold : ℚ)
    (acc : List Point) (cn : Point × Point) : List Point :=
  match acc with
  | [] => acc
  | prev :: _ =>
    if d prev cn.1 < min_distance then acc
    else if angle_threshold < ang prev cn.1 cn.2 then acc
    else cn.1 :: acc

/-- Embedding of `clean_route_advanced`: inputs of length at most two are
returned unchanged; otherwise start `cleaned` at the first point, fold the
interior points (each paired with its raw successor, used by the angle test)
through `cleanStep`, and finally append the last raw point unless the most
recently kept point already equals it. -/
def clean_route_advanced (d : Dist) (ang : Angle) (points : List Point)
    (min_distance angle_threshold : ℚ) : List Point :=
  if points.length ≤ 2 then points
  else
    match points with
    | [] => []
    | p0 :: rest =>
      let lastP := rest.getLastD p0
      let acc := (rest.zip (rest.drop 1)).foldl
        (cleanStep d ang min_distance angle_threshold) [p0]
      let acc2 := if acc.head? ≠ some lastP then lastP :: acc else acc
      acc2.reverse

/-- The inner `for k` loop of `remove_backtracking`: is some recently kept
point (the last ten entries of `cleaned`) within `threshold_distance` of the
candidate future point? -/
def hasCloseRecent (d : Dist) (threshold_distance : ℚ) (cleaned : List Point)
    (future : Point) : Bool :=
  (cleaned.drop (cleaned.length - 10)).any
    (fun past => decide (d past future < threshold_distance))

/-- The `for j` scan of `remove_backtracking`: the first index `j` in
`[i+3, min (i+50) points.length)` whose point is close to a recently kept
point, or `none` when fewer than three points are kept or no such `j`
exists. -/
def scanJump (d : Dist) (points : List Point) (threshold_distance : ℚ)
    (i : ℕ) (cleaned : List Point) : Option ℕ :=
  if 3 ≤ cleaned.length then
    (List.range' (i + 3) (min (i + 50) points.length - (i + 3))).find?
      (fun j => hasCloseRecent d threshold_distance cleaned (points.getD j (0, 0)))
  else none

/-- The outer `while i < len(points)` loop of `remove_backtracking`.  The
index `i` strictly increases every iteration (a detected backtrack jumps it
to the hit index `j`), so the loop is driven by a fuel argument;
`points.length ≤ fuel + i` holds at every call site, which makes the
fuel-exhaustion branch unreachable. -/
def rbGo (d : Dist) (points : List Point) (threshold_distance : ℚ) :
    ℕ → ℕ → List Point → ℕ → List Point × ℕ
  | 0, _, cleaned, removed => (cleaned, removed)
  | fuel + 1, i, cleaned, removed =>
    if i < points.length then
      let cleaned2 := cleaned ++ [points.getD i (0, 0)]
      match scanJump d points threshold_distance i cleaned2 with
      | some j => rbGo d points threshold_distance fuel j cleaned2 (removed + 1)
      | none => rbGo d points threshold_distance fuel (i + 1) cleaned2 removed
    else (cleaned, removed)

/-- Embedding of `remove_backtracking`: inputs of length at most three are
returned unchanged with a zero removed-segments count. -/
def remove_backtracking (d : Dist) (points : List Point)
    (threshold_distance : ℚ) : List Point × ℕ :=
  if points.length ≤ 3 then (points, 0)
  else rbGo d points threshold_distance points.length 0 [] 0

/-- Embedding of the inner helper `perpendicular_distance` of
`douglas_peucker_simplify`: point-to-line distance in raw coordinate space,
degenerating to `d point line_start / 111000` when the chord endpoints
coincide, and to `0` when the square root of the chord length is not
positive. -/
def perpendicular_distance (d : Dist) (sq : Sqrt)
    (point line_start line_end : Point) : ℚ :=
  if line_start = line_end then d point line_start / 111000
  else
    let num := |(line_end.2 - line_start.2) * point.1
      - (line_end.1 - line_start.1) * point.2
      + line_end.1 * line_start.2 - line_end.2 * line_start.1|
    let den := sq ((line_end.2 - line_start.2) ^ 2 + (line_end.1 - line_start.1) ^ 2)
    if 0 < den then num / den else 0

/-- The `for i in range(1, len(points) - 1)` max-scan of
`douglas_peucker_recursive`: running maximum of `f` over `l` with strict
improvement, indices counted from `start`, state `(max_distance, max_index)`
started at `(0, 0)` by the caller. -/
def findMaxFrom (f : Point → ℚ) : ℕ → ℚ × ℕ → List Point → ℚ × ℕ
  | _, acc, [] => acc
  | start, acc, p :: ps =>
    findMaxFrom f (start + 1) (if acc.1 < f p then (f p, start) else acc) ps

/-- Fuel-driven embedding of `douglas_peucker_recursive`.  For a negative
`epsilon` the Python recursion can call itself on an unchanged list (when
all interior deviations are zero the split index stays `0`) and dies with a
`RecursionError`; that divergence is the `none` value here.  `fuel =
points.length` is enough for every `epsilon ≥ 0` (proved below). -/
def dpFuel (d : Dist) (sq : Sqrt) : ℕ → List Point → ℚ → Option (List Point)
  | 0, points, _ => if points.length ≤ 2 then some points else none
  | fuel + 1, points, epsilon =>
    if points.length ≤ 2 then some points
    else
      let p0 := points.headD (0, 0)
      let pn := points.getLastD (0, 0)
      let md := findMaxFrom (fun p => perpendicular_distance d sq p p0 pn) 1 (0, 0)
        ((points.drop 1).dropLast)
      if epsilon < md.1 then
        match dpFuel d sq fuel (points.take (md.2 + 1)) epsilon,
              dpFuel d sq fuel (points.drop md.2) epsilon with
        | some left, some right => some (left.dropLast ++ right)
        | _, _ => none
      else some [p0, pn]

/-- Embedding of `douglas_peucker_simplify` (which immediately calls
`douglas_peucker_recursive` on the full list). -/
def douglas_peucker_simplify (d : Dist) (sq : Sqrt) (points : List Point)
    (epsilon : ℚ) : Option (List Point) :=
  dpFuel d sq points.length points epsilon

/-- The `optimize_level` → `epsilon` mapping of `optimize_route_advanced`
(source lines 265-270): `"advanced"` → `0.0001`, `"medium"` → `0.0002`, and
every other string falls into the `else` arm → `0.0005`; there is no
rejection of unrecognized levels. -/
def levelEpsilon (optimize_level : String) : ℚ :=
  if optimize_level = "advanced" then 1 / 10000
  else if optimize_level = "medium" then 2 / 10000
  else 5 / 10000

/-- Failure modes of the embedded pipeline.  `emptyInput` is the
`raise Exception("No se encontraron puntos GPX")` of source line 249 (the
spec's `EmptyInputError`); `recursionLimit` marks the divergence of the
Douglas-Peucker recursion (unreachable at the positive pipeline epsilons). -/
inductive OptError
  | emptyInput
  | recursionLimit
deriving DecidableEq, Repr

/-- The file-loading loop of `optimize_route_advanced` (source lines
239-246): each source either yields its points or raises; a raising source
is caught by the `except` arm, reported and skipped (`continue`), so only
the points of the successful sources are concatenated, in order. -/
def gatherPoints (sources : List (Except String (List Point))) : List Point :=
  sources.foldl (fun acc s => match s with | .ok pts => acc ++ pts | .error _ => acc) []

/-- Embedding of `optimize_route_advanced`: gather the loadable points, fail
with `emptyInput` when none were found, then run `clean_route_advanced`
(defaults `15`, `160`), `remove_backtracking` (default `50`) and
`douglas_peucker_simplify` at the level-derived epsilon, returning the
simplified track with its total distance. -/
def optimize_route_advanced (d : Dist) (ang : Angle) (sq : Sqrt)
    (sources : List (Except String (List Point))) (optimize_level : String) :
    Except OptError (List Point × ℚ) :=
  let all_points := gatherPoints sources
  if all_points.isEmpty then .error .emptyInput
  else
    let cleaned := clean_route_advanced d ang all_points 15 160
    let rb := remove_backtracking d cleaned 50
    match douglas_peucker_simplify d sq rb.1 (levelEpsilon optimize_level) with
    | some simplified => .ok (simplified, calculate_total_distance d simplified)
    | none => .error .recursionLimit

/-- Report record built by `validate_optimization` (one field per dictionary
key of the source). -/
structure OptimizationReport where
  original_points : ℕ
  optimized_points : ℕ
  points_reduction : ℤ
  original_distance_km : ℚ
  optimized_distance_km : ℚ
  distance_reduction_km : ℚ
  distance_reduction_percent : ℚ
  loops_removed : ℕ
  efficiency_score : ℚ
deriving DecidableEq, Repr

/-- Embedding of `validate_optimization`.  The `distance_reduction_percent`
division is guarded (`if original_distance > 0 else 0`), but the
`efficiency_score` line divides by `len(original_points)` with no guard, so
an empty original track raises `ZeroDivisionError`; that raise is the
`.error` branch here. -/
def validate_optimization (d : Dist) (rnd : Rnd)
    (original_points optimized_points : List Point) :
    Except String OptimizationReport :=
  let original_distance := calculate_total_distance d original_points
  let optimized_distance := calculate_total_distance d optimized_points
  let distance_reduction := original_distance - optimized_distance
  let distance_reduction_percent :=
    if 0 < original_distance then distance_reduction / original_distance * 100 else 0
  let points_reduction : ℤ :=
    (original_points.length : ℤ) - optimized_points.length
  if original_points.length = 0 then .error "ZeroDivisionError"
  else .ok
    { original_points := original_points.length
      optimized_points := optimized_points.length
      points_reduction := points_reduction
      original_distance_km := rnd (original_distance / 1000) 2
      optimized_distance_km := rnd (optimized_distance / 1000) 2
      distance_reduction_km := rnd (distance_reduction / 1000) 2
      distance_reduction_percent := rnd distance_reduction_percent 1
      loops_removed := 0
      efficiency_score := rnd ((points_reduction : ℚ) / original_points.length * 100) 1 }

/-- Concrete distance oracle used by witnesses and counterexamples: the
discrete metric at the scale of the spec's backtracking scenario (distinct
sample points lie 80 metres apart, coincident ones at distance 0).  Like the
geodesic it is a genuine metric and vanishes exactly on coincident points,
which are the only properties the concrete tracks below rely on. -/
def dEx : Dist := fun p q => if p = q then 0 else 80

/-- Concrete angle oracle for witnesses; the source's `calculate_angle`
returns `0` for zero-length vectors, the only case concrete witnesses hit. -/
def angEx : Angle := fun _ _ _ => 0

/-- Concrete square-root oracle for witnesses (only its sign at the inputs
reached matters to the statements evaluated). -/
def sqEx : Sqrt := fun q => q

/-- Concrete rounding oracle for witnesses. -/
def rndEx : Rnd := fun q _ => q


/-- C1: `optimize_route_advanced` fails with the empty-input error when the
concatenated input sequence has zero points, and on a single-point input it
does not fail and returns that point with total distance zero. -/
theorem optimize_empty_error_and_single_point_zero (d : Dist) (ang : Angle)
    (sq : Sqrt) (sources : List (Except String (List Point))) (level : String) :
    (gatherPoints sources = [] →
      optimize_route_advanced d ang sq sources level = .error .emptyInput) ∧
    (∀ p : Point, gatherPoints sources = [p] →
      optimize_route_advanced d ang sq sources level = .ok ([p], 0)) := by
  constructor
  · intro h
    simp [optimize_route_advanced, h]
  · intro p h
    simp [optimize_route_advanced, h, clean_route_advanced, remove_backtracking,
      douglas_peucker_simplify, dpFuel, calculate_total_distance]

/-- Witness for C1 at concrete inputs: one loadable but empty source, and one
single-point source. -/
theorem optimize_empty_error_and_single_point_zero_witness :
    optimize_route_advanced dEx angEx sqEx [Except.ok []] "medium" =
      .error .emptyInput ∧
    optimize_route_advanced dEx angEx sqEx [Except.ok [((0 : ℚ), (0 : ℚ))]]
      "medium" = .ok ([((0 : ℚ), (0 : ℚ))], 0) :=
  ⟨(optimize_empty_error_and_single_point_zero dEx angEx sqEx
      [Except.ok []] "medium").1 rfl,
   (optimize_empty_error_and_single_point_zero dEx angEx sqEx
      [Except.ok [((0 : ℚ), (0 : ℚ))]] "medium").2 (0, 0) rfl⟩

/-- C2 counterexample: a pipeline run whose first point source fails to load
(`Except.error "unreadable"`) still returns a successful result built from
the remaining source, so a failing source does not abort the pipeline. -/
theorem optimize_continues_past_failed_source_cex :
    optimize_route_advanced dEx angEx sqEx
      [Except.error "unreadable", Except.ok [((0 : ℚ), (0 : ℚ))]] "medium" =
      .ok ([((0 : ℚ), (0 : ℚ))], 0) := rfl

/-- C2 amended: a point source that fails to load is silently dropped by the
`except: continue` arm of the loading loop and the pipeline continues with
the remaining sources unchanged; it aborts (with the empty-input error) only
when no points load at all. -/
theorem optimize_drops_failed_source (d : Dist) (ang : Angle) (sq : Sqrt)
    (e : String) (rest : List (Except String (List Point))) (level : String) :
    optimize_route_advanced d ang sq (Except.error e :: rest) level =
      optimize_route_advanced d ang sq rest level := rfl

/-- C9 counterexample: the unrecognized optimization level `"bogus"` is not
rejected; the pipeline silently uses the `else` epsilon and returns a
result. -/
theorem optimize_unknown_level_returns_result_cex :
    optimize_route_advanced dEx angEx sqEx
      [Except.ok [((0 : ℚ), (0 : ℚ))]] "bogus" =
      .ok ([((0 : ℚ), (0 : ℚ))], 0) := rfl

/-- C9 amended: any optimization level outside `{"advanced", "medium"}`
(in particular any unrecognized string) falls into the `else` arm, gets the
basic epsilon `0.0005`, and the pipeline behaves exactly as at level
`"basic"`. -/
theorem optimize_unknown_level_defaults_to_basic (d : Dist) (ang : Angle)
    (sq : Sqrt) (sources : List (Except String (List Point))) (level : String)
    (h1 : level ≠ "advanced") (h2 : level ≠ "medium") :
    levelEpsilon level = 5 / 10000 ∧
    optimize_route_advanced d ang sq sources level =
      optimize_route_advanced d ang sq sources "basic" := by
  have he : levelEpsilon level = levelEpsilon "basic" := by
    simp [levelEpsilon, h1, h2]
  exact ⟨he, by simp only [optimize_route_advanced, he]⟩

/-- Witness for C9 amended at the concrete unrecognized level `"bogus"`. -/
theorem optimize_unknown_level_defaults_witness :
    levelEpsilon "bogus" = 5 / 10000 ∧
    optimize_route_advanced dEx angEx sqEx [Except.ok [((0 : ℚ), (0 : ℚ))]]
      "bogus" =
      optimize_route_advanced dEx angEx sqEx [Except.ok [((0 : ℚ), (0 : ℚ))]]
      "basic" :=
  optimize_unknown_level_defaults_to_basic dEx angEx sqEx
    [Except.ok [((0 : ℚ), (0 : ℚ))]] "bogus" (by decide) (by decide)

/-- C7 counterexample: validating with an empty original track raises
(`ZeroDivisionError` from the unguarded `points_reduction /
len(original_points)` division in the `efficiency_score` line) instead of
returning a report. -/
theorem validate_empty_original_raises_cex :
    validate_optimization dEx rndEx [] [] = .error "ZeroDivisionError" := rfl

/-- C7 amended: for a nonempty original track `validate_optimization` always
returns a report without raising, and a zero original distance makes the
percent-reduction division default to zero; only the empty original track
raises (the unguarded efficiency-score division). -/
theorem validate_nonempty_no_raise (d : Dist) (rnd : Rnd)
    (original optimized : List Point) (h : original ≠ []) :
    ∃ r, validate_optimization d rnd original optimized = .ok r ∧
      (calculate_total_distance d original = 0 →
        r.distance_reduction_percent = rnd 0 1) := by
  have hl : ¬ original.length = 0 := by simpa using h
  simp only [validate_optimization, if_neg hl]
  refine ⟨_, rfl, ?_⟩
  intro h0
  simp [h0]

/-- Witness for C7 amended: a one-point original (hence distance zero)
against an empty optimized track yields a report whose percent reduction is
the rounded zero. -/
theorem validate_nonempty_no_raise_witness :
    ∃ r, validate_optimization dEx rndEx [((0 : ℚ), (0 : ℚ))] [] = .ok r ∧
      (calculate_total_distance dEx [((0 : ℚ), (0 : ℚ))] = 0 →
        r.distance_reduction_percent = rndEx 0 1) :=
  validate_nonempty_no_raise dEx rndEx [((0 : ℚ), (0 : ℚ))] [] (by decide)

/-- C3 counterexample: a three-point track whose points all coincide (so its
first and last point are equal and every interior point is dropped by the
minimum-distance rule) is reduced to a single point, violating the claimed
output length of at least two. -/
theorem clean_route_can_return_singleton_cex :
    2 ≤ ([((0 : ℚ), (0 : ℚ)), (0, 0), (0, 0)] : List Point).length ∧
    (clean_route_advanced dEx angEx [((0 : ℚ), (0 : ℚ)), (0, 0), (0, 0)]
      15 160).length < 2 := by decide

/-- C8: on a six-point track realizing the shape A → B → A — leaving
A = (0,0), sampling out through B = (0,2) (80 metres from A under the
witness metric) and returning to A, so that the revisit to A falls inside
the forward lookahead window — `remove_backtracking` at threshold 50
collapses the excursion: the output has fewer points than the input and
exactly one removed segment is reported. -/
theorem remove_backtracking_collapses_reversal :
    dEx (0, 0) (0, 2) = 80 ∧
    (remove_backtracking dEx
      [((0 : ℚ), (0 : ℚ)), (0, 1), (0, 2), (0, 3), (0, 4), (0, 0)] 50).1.length <
      ([((0 : ℚ), (0 : ℚ)), (0, 1), (0, 2), (0, 3), (0, 4), (0, 0)] :
        List Point).length ∧
    (remove_backtracking dEx
      [((0 : ℚ), (0 : ℚ)), (0, 1), (0, 2), (0, 3), (0, 4), (0, 0)] 50).2 = 1 := by
  decide


/-- Pushing onto a nonempty list does not change its last element. -/
theorem getLast?_cons_ne {α : Type} (a : α) (l : List α) (h : l ≠ []) :
    (a :: l).getLast? = l.getLast? := by
  cases l with
  | nil => exact absurd rfl h
  | cons b t => exact List.getLast?_cons_cons

/-- A `cleanStep` call either keeps the accumulator or pushes the current
point on top of it. -/
theorem cleanStep_cases (d : Dist) (ang : Angle) (minD angT : ℚ)
    (acc : List Point) (cn : Point × Point) :
    cleanStep d ang minD angT acc cn = acc ∨
    cleanStep d ang minD angT acc cn = cn.1 :: acc := by
  cases acc with
  | nil => exact Or.inl rfl
  | cons prev t =>
    simp only [cleanStep]
    split_ifs <;> simp

/-- Folding `cleanStep` never empties a nonempty accumulator. -/
theorem cleanFold_ne_nil (d : Dist) (ang : Angle) (minD angT : ℚ)
    (l : List (Point × Point)) :
    ∀ acc : List Point, acc ≠ [] →
      l.foldl (cleanStep d ang minD angT) acc ≠ [] := by
  induction l with
  | nil => exact fun acc h => h
  | cons x xs ih =>
    intro acc h
    rw [List.foldl_cons]
    rcases cleanStep_cases d ang minD angT acc x with hc | hc <;> rw [hc]
    · exact ih acc h
    · exact ih _ (by simp)

/-- Folding `cleanStep` only pushes on top, so the bottom (the first kept
point) is unchanged. -/
theorem cleanFold_getLast? (d : Dist) (ang : Angle) (minD angT : ℚ)
    (l : List (Point × Point)) :
    ∀ acc : List Point, acc ≠ [] →
      (l.foldl (cleanStep d ang minD angT) acc).getLast? = acc.getLast? := by
  induction l with
  | nil => exact fun acc _ => rfl
  | cons x xs ih =>
    intro acc h
    rw [List.foldl_cons]
    rcases cleanStep_cases d ang minD angT acc x with hc | hc <;> rw [hc]
    · exact ih acc h
    · rw [ih _ (by simp)]
      cases acc with
      | nil => exact absurd rfl h
      | cons a t => exact List.getLast?_cons_cons

/-- Folding `cleanStep` adds at most one point per interior input point. -/
theorem cleanFold_length (d : Dist) (ang : Angle) (minD angT : ℚ)
    (l : List (Point × Point)) :
    ∀ acc : List Point,
      (l.foldl (cleanStep d ang minD angT) acc).length ≤ acc.length + l.length := by
  induction l with
  | nil => intro acc; simp
  | cons x xs ih =>
    intro acc
    rw [List.foldl_cons]
    rcases cleanStep_cases d ang minD angT acc x with hc | hc <;> rw [hc]
    · have := ih acc
      simp only [List.length_cons]
      omega
    · have := ih (x.1 :: acc)
      simp only [List.length_cons] at this ⊢
      omega

/-- Unfolding equation of `clean_route_advanced` on a long-enough cons. -/
theorem clean_route_cons (d : Dist) (ang : Angle) (minD angT : ℚ)
    (p0 : Point) (rest : List Point) (h : ¬ (p0 :: rest).length ≤ 2) :
    clean_route_advanced d ang (p0 :: rest) minD angT =
      (let lastP := rest.getLastD p0
       let acc := (rest.zip (rest.drop 1)).foldl
         (cleanStep d ang minD angT) [p0]
       (if acc.head? ≠ some lastP then lastP :: acc else acc).reverse) := by
  unfold clean_route_advanced
  rw [if_neg h]

/-- Core facts about `clean_route_advanced` on a nonempty input: the head
and the last point are preserved and the length never grows. -/
theorem clean_route_spec (d : Dist) (ang : Angle) (points : List Point)
    (minD angT : ℚ) (h : points ≠ []) :
    (clean_route_advanced d ang points minD angT).head? = points.head? ∧
    (clean_route_advanced d ang points minD angT).getLast? = points.getLast? ∧
    (clean_route_advanced d ang points minD angT).length ≤ points.length := by
  by_cases hlen : points.length ≤ 2
  · unfold clean_route_advanced
    rw [if_pos hlen]
    exact ⟨rfl, rfl, le_refl _⟩
  · rcases points with _ | ⟨p0, rest⟩
    · exact absurd rfl h
    · have hrne : rest ≠ [] := by
        intro hr
        rw [hr] at hlen
        exact hlen (by simp)
      have hEq := clean_route_cons d ang minD angT p0 rest hlen
      simp only [] at hEq
      set lastP := rest.getLastD p0 with hlpdef
      set acc := (rest.zip (rest.drop 1)).foldl (cleanStep d ang minD angT) [p0]
        with haccdef
      set acc2 := if acc.head? ≠ some lastP then lastP :: acc else acc with hacc2def
      have haccne : acc ≠ [] :=
        cleanFold_ne_nil d ang minD angT _ [p0] (by simp)
      have hacclast : acc.getLast? = some p0 := by
        rw [haccdef, cleanFold_getLast? d ang minD angT _ [p0] (by simp)]
        rfl
      have hacc2last : acc2.getLast? = some p0 := by
        rw [hacc2def]
        split
        · rw [getLast?_cons_ne _ _ haccne]
          exact hacclast
        · exact hacclast
      have hacc2head : acc2.head? = some lastP := by
        rw [hacc2def]
        split
        · rfl
        · rename_i hne
          push_neg at hne
          exact hne
      have hlast_pts : (p0 :: rest).getLast? = some lastP := by
        rcases rest with _ | ⟨r, rs⟩
        · exact absurd rfl hrne
        · have h1 : (r :: rs).getLast? = some ((r :: rs).getLast (by simp)) :=
            List.getLast?_eq_getLast _ _
          rw [List.getLast?_cons_cons, h1, hlpdef, List.getLastD_eq_getLast?, h1]
          rfl
      refine ⟨?_, ?_, ?_⟩
      · rw [hEq, List.head?_reverse, hacc2last]
        rfl
      · rw [hEq, List.getLast?_reverse, hacc2head, hlast_pts]
      · rw [hEq, List.length_reverse]
        have h1 : acc2.length ≤ acc.length + 1 := by
          rw [hacc2def]
          split <;> simp
        have h2 : acc.length ≤ 1 + min rest.length (rest.length - 1) := by
          rw [haccdef]
          have h0 := cleanFold_length d ang minD angT (rest.zip (rest.drop 1)) [p0]
          rw [List.length_zip, List.length_drop] at h0
          simpa using h0
        have h4 : (p0 :: rest).length = rest.length + 1 := by simp
        have h5 : 2 ≤ rest.length := by
          rw [h4] at hlen
          omega
        rw [h4]
        omega

/-- C4: for every nonempty input track, the noise filter
`clean_route_advanced` returns a track whose first point is the input's
first point and whose last point is the input's last point, of length never
exceeding the input's. -/
theorem clean_route_preserves_ends_and_length (d : Dist) (ang : Angle)
    (points : List Point) (min_distance angle_threshold : ℚ) (h : points ≠ []) :
    (clean_route_advanced d ang points min_distance angle_threshold).head? =
      points.head? ∧
    (clean_route_advanced d ang points min_distance angle_threshold).getLast? =
      points.getLast? ∧
    (clean_route_advanced d ang points min_distance angle_threshold).length ≤
      points.length :=
  clean_route_spec d ang points min_distance angle_threshold h

/-- Witness for C4 on a concrete three-point track. -/
theorem clean_route_preserves_ends_witness :
    ([((0 : ℚ), (0 : ℚ)), (0, 1), (0, 2)] : List Point) ≠ [] ∧
    ((clean_route_advanced dEx angEx [((0 : ℚ), (0 : ℚ)), (0, 1), (0, 2)]
        15 160).head? =
      ([((0 : ℚ), (0 : ℚ)), (0, 1), (0, 2)] : List Point).head? ∧
    (clean_route_advanced dEx angEx [((0 : ℚ), (0 : ℚ)), (0, 1), (0, 2)]
        15 160).getLast? =
      ([((0 : ℚ), (0 : ℚ)), (0, 1), (0, 2)] : List Point).getLast? ∧
    (clean_route_advanced dEx angEx [((0 : ℚ), (0 : ℚ)), (0, 1), (0, 2)]
        15 160).length ≤
      ([((0 : ℚ), (0 : ℚ)), (0, 1), (0, 2)] : List Point).length) :=
  ⟨by decide,
   clean_route_preserves_ends_and_length dEx angEx
     [((0 : ℚ), (0 : ℚ)), (0, 1), (0, 2)] 15 160 (by decide)⟩

/-- C3 amended: when the input has at least two points and its first point
differs from its last point, the noise filter returns at least two points;
a track whose endpoints coincide can collapse to a single point, as the
counterexample shows. -/
theorem clean_route_length_ge_two_of_ends_distinct (d : Dist) (ang : Angle)
    (points : List Point) (min_distance angle_threshold : ℚ)
    (h2 : 2 ≤ points.length) (hne : points.head? ≠ points.getLast?) :
    2 ≤ (clean_route_advanced d ang points min_distance angle_threshold).length := by
  have hnn : points ≠ [] := by
    intro hp
    rw [hp] at h2
    simp at h2
  obtain ⟨hh, hl, _⟩ :=
    clean_route_spec d ang points min_distance angle_threshold hnn
  rcases hc : clean_route_advanced d ang points min_distance angle_threshold with
    _ | ⟨a, _ | ⟨b, t⟩⟩
  · rw [hc] at hh
    rw [List.head?_eq_none_iff.mp hh.symm] at h2
    simp at h2
  · rw [hc] at hh hl
    exact absurd (hh.symm.trans hl) hne
  · simp

/-- Witness for C3 amended on a concrete three-point track with distinct
endpoints. -/
theorem clean_route_length_ge_two_witness :
    2 ≤ ([((0 : ℚ), (0 : ℚ)), (0, 1), (0, 2)] : List Point).length ∧
    2 ≤ (clean_route_advanced dEx angEx [((0 : ℚ), (0 : ℚ)), (0, 1), (0, 2)]
      15 160).length :=
  ⟨by decide,
   clean_route_length_ge_two_of_ends_distinct dEx angEx
     [((0 : ℚ), (0 : ℚ)), (0, 1), (0, 2)] 15 160 (by decide) (by decide)⟩

/-- A successful `scanJump` always lands at least three indices ahead and
inside the point list. -/
theorem scanJump_bounds (d : Dist) (points : List Point) (thr : ℚ)
    (i j : ℕ) (cleaned : List Point)
    (h : scanJump d points thr i cleaned = some j) :
    i + 3 ≤ j ∧ j < points.length := by
  unfold scanJump at h
  split at h
  · have hmem := List.mem_of_find?_eq_some h
    rw [List.mem_range'_1] at hmem
    have hmin : min (i + 50) points.length ≤ points.length := min_le_right _ _
    omega
  · exact absurd h (by simp)

/-- When the loop index is past the end, `rbGo` returns its accumulator
regardless of fuel. -/
theorem rbGo_past_end (d : Dist) (points : List Point) (thr : ℚ)
    (fuel i : ℕ) (cleaned : List Point) (removed : ℕ)
    (h : ¬ i < points.length) :
    rbGo d points thr fuel i cleaned removed = (cleaned, removed) := by
  cases fuel with
  | zero => rfl
  | succ fuel => rw [rbGo, if_neg h]

/-- Loop invariant of `rbGo`: starting at index `i < points.length` with
enough fuel, the loop appends to its accumulator an order-preserving,
nonempty selection of `points.drop i` that starts at `points[i]` and ends at
the last input point. -/
theorem rbGo_spec (d : Dist) (points : List Point) (thr : ℚ) :
    ∀ fuel i (cleaned : List Point) (removed : ℕ),
      points.length ≤ fuel + i → (hi : i < points.length) →
      ∃ s : List Point,
        (rbGo d points thr fuel i cleaned removed).1 = cleaned ++ s ∧
        s.Sublist (points.drop i) ∧
        s.head? = some (points.get ⟨i, hi⟩) ∧
        s.getLast? = points.getLast? := by
  intro fuel
  induction fuel with
  | zero => intro i cleaned removed hf hi; omega
  | succ fuel ih =>
    intro i cleaned removed hf hi
    rw [rbGo, if_pos hi]
    have hgd : points.getD i (0, 0) = points.get ⟨i, hi⟩ :=
      List.getD_eq_getElem points (0, 0) hi
    have hdropi : points.drop i = points.get ⟨i, hi⟩ :: points.drop (i + 1) :=
      List.drop_eq_getElem_cons hi
    cases hsj : scanJump d points thr i (cleaned ++ [points.getD i (0, 0)]) with
    | some j =>
      simp only [hsj]
      obtain ⟨hj3, hjlen⟩ := scanJump_bounds d points thr i j _ hsj
      obtain ⟨s, hs1, hs2, hs3, hs4⟩ :=
        ih j (cleaned ++ [points.getD i (0, 0)]) (removed + 1) (by omega) hjlen
      have hsne : s ≠ [] := by
        intro hnil
        rw [hnil] at hs3
        exact absurd hs3 (by simp)
      refine ⟨points.get ⟨i, hi⟩ :: s, ?_, ?_, ?_, ?_⟩
      · rw [hs1, hgd]
        simp
      · rw [hdropi]
        refine List.cons_sublist_cons.mpr ?_
        refine hs2.trans ?_
        have : points.drop j = (points.drop (i + 1)).drop (j - (i + 1)) := by
          rw [List.drop_drop]
          congr 1
          omega
        rw [this]
        exact List.drop_sublist _ _
      · rfl
      · rw [getLast?_cons_ne _ _ hsne]
        exact hs4
    | none =>
      simp only [hsj]
      by_cases hi1 : i + 1 < points.length
      · obtain ⟨s, hs1, hs2, hs3, hs4⟩ :=
          ih (i + 1) (cleaned ++ [points.getD i (0, 0)]) removed (by omega) hi1
        have hsne : s ≠ [] := by
          intro hnil
          rw [hnil] at hs3
          exact absurd hs3 (by simp)
        refine ⟨points.get ⟨i, hi⟩ :: s, ?_, ?_, ?_, ?_⟩
        · rw [hs1, hgd]
          simp
        · rw [hdropi]
          exact List.cons_sublist_cons.mpr hs2
        · rfl
        · rw [getLast?_cons_ne _ _ hsne]
          exact hs4
      · rw [rbGo_past_end d points thr fuel (i + 1) _ removed hi1]
        refine ⟨[points.get ⟨i, hi⟩], ?_, ?_, rfl, ?_⟩
        · rw [hgd]
        · rw [hdropi]
          exact (List.nil_sublist _).cons_cons _
        · have hieq : points.length - 1 = i := by omega
          simp only [List.getLast?_singleton]
          rw [List.getLast?_eq_getElem?, hieq, List.getElem?_eq_getElem hi]
          rfl



/-- C10: for every nonempty input track and any threshold,
`remove_backtracking` returns an order-preserving subsequence of the input
that starts at the input's first point and ends at its last point (the
removed-segments count is a natural number by construction). -/
theorem remove_backtracking_subsequence_invariants (d : Dist)
    (points : List Point) (threshold_distance : ℚ) (h : points ≠ []) :
    (remove_backtracking d points threshold_distance).1.Sublist points ∧
    (remove_backtracking d points threshold_distance).1.head? = points.head? ∧
    (remove_backtracking d points threshold_distance).1.getLast? =
      points.getLast? := by
  unfold remove_backtracking
  split
  · exact ⟨List.Sublist.refl _, rfl, rfl⟩
  · rename_i hlen
    have hpos : 0 < points.length := by
      cases points with
      | nil => exact absurd rfl h
      | cons a t => simp
    obtain ⟨s, hs1, hs2, hs3, hs4⟩ :=
      rbGo_spec d points threshold_distance points.length 0 [] 0
        (by omega) hpos
    rw [hs1, List.nil_append]
    refine ⟨by simpa using hs2, ?_, hs4⟩
    rw [hs3]
    cases points with
    | nil => exact absurd rfl h
    | cons a t => rfl

/-- Witness for C10 on a concrete five-point track. -/
theorem remove_backtracking_subsequence_witness :
    ([((0 : ℚ), (0 : ℚ)), (0, 1), (0, 2), (0, 3), (0, 4)] : List Point) ≠ [] ∧
    ((remove_backtracking dEx
        [((0 : ℚ), (0 : ℚ)), (0, 1), (0, 2), (0, 3), (0, 4)] 50).1.Sublist
      [((0 : ℚ), (0 : ℚ)), (0, 1), (0, 2), (0, 3), (0, 4)] ∧
    (remove_backtracking dEx
        [((0 : ℚ), (0 : ℚ)), (0, 1), (0, 2), (0, 3), (0, 4)] 50).1.head? =
      ([((0 : ℚ), (0 : ℚ)), (0, 1), (0, 2), (0, 3), (0, 4)] : List Point).head? ∧
    (remove_backtracking dEx
        [((0 : ℚ), (0 : ℚ)), (0, 1), (0, 2), (0, 3), (0, 4)] 50).1.getLast? =
      ([((0 : ℚ), (0 : ℚ)), (0, 1), (0, 2), (0, 3), (0, 4)] :
        List Point).getLast?) :=
  ⟨by decide,
   remove_backtracking_subsequence_invariants dEx
     [((0 : ℚ), (0 : ℚ)), (0, 1), (0, 2), (0, 3), (0, 4)] 50 (by decide)⟩

/-- Head of a `take` with a positive count. -/
theorem head?_take_pos {α : Type} (l : List α) (n : ℕ) (h : 0 < n) :
    (l.take n).head? = l.head? := by
  rw [List.head?_take, if_neg (by omega)]

/-- Head survives `dropLast` on a list with at least two elements. -/
theorem head?_dropLast_of_two {α : Type} (l : List α) (h : 2 ≤ l.length) :
    l.dropLast.head? = l.head? := by
  match l, h with
  | a :: b :: t, _ => rfl

/-- Head of an append whose first part is nonempty. -/
theorem head?_append_ne {α : Type} (l r : List α) (h : l ≠ []) :
    (l ++ r).head? = l.head? := by
  cases l with
  | nil => exact absurd rfl h
  | cons a t => rfl

/-- Last element of an append whose second part is nonempty. -/
theorem getLast?_append_ne {α : Type} (l r : List α) (h : r ≠ []) :
    (l ++ r).getLast? = r.getLast? := by
  rw [List.getLast?_append]
  cases hg : r.getLast? with
  | none => exact absurd (List.getLast?_eq_none_iff.mp hg) h
  | some a => rfl

/-- Last element survives a `drop` that leaves the list nonempty. -/
theorem getLast?_drop_of_lt {α : Type} (l : List α) (n : ℕ) (h : n < l.length) :
    (l.drop n).getLast? = l.getLast? := by
  rw [List.getLast?_eq_getElem?, List.getLast?_eq_getElem?, List.length_drop,
    List.getElem?_drop]
  congr 1
  omega

/-- A shared final element can be cancelled from a sublist relation. -/
theorem sublist_cancel_concat {α : Type} {l₁ l₂ : List α} {a : α}
    (h : List.Sublist (l₁ ++ [a]) (l₂ ++ [a])) : List.Sublist l₁ l₂ := by
  have h' := h.reverse
  simp only [List.reverse_append, List.reverse_cons, List.reverse_nil,
    List.nil_append, List.singleton_append] at h'
  exact List.reverse_sublist.mp (List.cons_sublist_cons.mp h')

/-- Head of a nonempty list as its `headD`. -/
theorem head?_eq_some_headD (pts : List Point) (h : pts ≠ []) :
    pts.head? = some (pts.headD (0, 0)) := by
  cases pts with
  | nil => exact absurd rfl h
  | cons a t => rfl

/-- Last element of a nonempty list as its `getLastD`. -/
theorem getLast?_eq_some_getLastD (pts : List Point) (h : pts ≠ []) :
    pts.getLast? = some (pts.getLastD (0, 0)) := by
  rw [List.getLastD_eq_getLast?]
  cases hg : pts.getLast? with
  | none => exact absurd (List.getLast?_eq_none_iff.mp hg) h
  | some x => rfl

/-- One-element `take` of a nonempty list. -/
theorem take_one_ne_nil (pts : List Point) (h : pts ≠ []) :
    pts.take 1 = [pts.headD (0, 0)] := by
  cases pts with
  | nil => exact absurd rfl h
  | cons a t => rfl

/-- Decomposition of a list of length at least three into head, interior and
last element; the interior is exactly the index range `1 .. length - 2`
scanned by `douglas_peucker_recursive`. -/
theorem decomp3 (pts : List Point) (h : 3 ≤ pts.length) :
    pts = pts.headD (0, 0) ::
      ((pts.drop 1).dropLast ++ [pts.getLastD (0, 0)]) := by
  match pts, h with
  | a :: t, h =>
    have htne : t ≠ [] := by
      intro ht
      rw [ht] at h
      simp at h
    show a :: t = a :: (t.dropLast ++ [(a :: t).getLastD (0, 0)])
    have hlast : (a :: t).getLastD (0, 0) = t.getLast htne := by
      rw [List.getLastD_eq_getLast?, getLast?_cons_ne _ _ htne,
        List.getLast?_eq_getLast t htne]
      rfl
    rw [hlast, List.dropLast_append_getLast htne]

/-- Length of the interior scanned by the max-search. -/
theorem mid_length (pts : List Point) :
    ((pts.drop 1).dropLast).length = pts.length - 2 := by
  rw [List.length_dropLast, List.length_drop]
  omega

/-- If no element beats the accumulator, the max-scan keeps it. -/
theorem findMaxFrom_of_all_le (f : Point → ℚ) :
    ∀ (l : List Point) (n : ℕ) (acc : ℚ × ℕ),
      (∀ p ∈ l, f p ≤ acc.1) → findMaxFrom f n acc l = acc := by
  intro l
  induction l with
  | nil => intro n acc _; rfl
  | cons p ps ih =>
    intro n acc h
    rw [findMaxFrom, if_neg (not_lt.mpr (h p (List.mem_cons_self p ps)))]
    exact ih (n + 1) acc (fun q hq => h q (List.mem_cons_of_mem _ hq))

/-- The running maximum stays below any strict upper bound of the inputs. -/
theorem findMaxFrom_lt (f : Point → ℚ) (c : ℚ) :
    ∀ (l : List Point) (n : ℕ) (acc : ℚ × ℕ),
      acc.1 < c → (∀ p ∈ l, f p < c) →
      (findMaxFrom f n acc l).1 < c := by
  intro l
  induction l with
  | nil => intro n acc h _; exact h
  | cons p ps ih =>
    intro n acc hacc h
    rw [findMaxFrom]
    refine ih (n + 1) _ ?_ (fun q hq => h q (List.mem_cons_of_mem _ hq))
    split
    · exact h p (List.mem_cons_self p ps)
    · exact hacc

/-- The max-scan of an append runs the two parts in sequence. -/
theorem findMaxFrom_append (f : Point → ℚ) :
    ∀ (l₁ l₂ : List Point) (n : ℕ) (acc : ℚ × ℕ),
      findMaxFrom f n acc (l₁ ++ l₂) =
        findMaxFrom f (n + l₁.length) (findMaxFrom f n acc l₁) l₂ := by
  intro l₁
  induction l₁ with
  | nil => intro l₂ n acc; rfl
  | cons p ps ih =>
    intro l₂ n acc
    rw [List.cons_append, findMaxFrom, findMaxFrom, ih]
    have : n + 1 + ps.length = n + (p :: ps).length := by
      simp only [List.length_cons]
      omega
    rw [this]

/-- The first strict maximum wins the scan: if everything before `x` stays
strictly below `f x`, everything after does not exceed it, and `f x` beats
the accumulator, the scan returns `f x` at the position of `x`. -/
theorem findMaxFrom_first_max (f : Point → ℚ) (A B : List Point) (x : Point)
    (n : ℕ) (acc : ℚ × ℕ) (haccx : acc.1 < f x)
    (hA : ∀ y ∈ A, f y < f x) (hB : ∀ y ∈ B, f y ≤ f x) :
    findMaxFrom f n acc (A ++ x :: B) = (f x, n + A.length) := by
  rw [findMaxFrom_append]
  have h1 : (findMaxFrom f n acc A).1 < f x :=
    findMaxFrom_lt f (f x) A n acc haccx hA
  rw [findMaxFrom, if_pos h1]
  exact findMaxFrom_of_all_le f B _ (f x, n + A.length) hB

/-- Full characterization of the max-scan: either no element beats the
initial accumulator and it is returned unchanged, or the result is the first
strict maximum of the list together with its position. -/
theorem findMaxFrom_char (f : Point → ℚ) :
    ∀ (l : List Point) (n : ℕ) (m₀ : ℚ) (i₀ : ℕ),
      (findMaxFrom f n (m₀, i₀) l = (m₀, i₀) ∧ ∀ p ∈ l, f p ≤ m₀) ∨
      (∃ l₁ x l₂, l = l₁ ++ x :: l₂ ∧
        findMaxFrom f n (m₀, i₀) l = (f x, n + l₁.length) ∧ m₀ < f x ∧
        (∀ y ∈ l₁, f y < f x) ∧ (∀ y ∈ l₂, f y ≤ f x)) := by
  intro l
  induction l with
  | nil => intro n m₀ i₀; exact Or.inl ⟨rfl, by simp⟩
  | cons p ps ih =>
    intro n m₀ i₀
    rw [findMaxFrom]
    by_cases hp : m₀ < f p
    · rw [if_pos hp]
      rcases ih (n + 1) (f p) n with ⟨h1, h2⟩ |
        ⟨l₁, x, l₂, hl, hres, hlt, hA, hB⟩
      · refine Or.inr ⟨[], p, ps, by simp, ?_, hp, by simp, h2⟩
        rw [h1]
        simp
      · refine Or.inr ⟨p :: l₁, x, l₂, by rw [hl, List.cons_append], ?_,
          lt_trans hp hlt, ?_, hB⟩
        · rw [hres]
          have : n + 1 + l₁.length = n + (p :: l₁).length := by
            simp only [List.length_cons]
            omega
          rw [this]
        · intro y hy
          rcases List.mem_cons.mp hy with rfl | hy'
          · exact hlt
          · exact hA y hy'
    · rw [if_neg hp]
      rcases ih (n + 1) m₀ i₀ with ⟨h1, h2⟩ |
        ⟨l₁, x, l₂, hl, hres, hlt, hA, hB⟩
      · refine Or.inl ⟨h1, ?_⟩
        intro q hq
        rcases List.mem_cons.mp hq with rfl | hq'
        · exact le_of_not_lt hp
        · exact h2 q hq'
      · refine Or.inr ⟨p :: l₁, x, l₂, by rw [hl, List.cons_append], ?_, hlt, ?_, hB⟩
        · rw [hres]
          have : n + 1 + l₁.length = n + (p :: l₁).length := by
            simp only [List.length_cons]
            omega
          rw [this]
        · intro y hy
          rcases List.mem_cons.mp hy with rfl | hy'
          · exact lt_of_le_of_lt (le_of_not_lt hp) hlt
          · exact hA y hy'

/-- Short inputs pass through Douglas-Peucker unchanged at any fuel. -/
theorem dpFuel_le_two (d : Dist) (sq : Sqrt) (fuel : ℕ) (points : List Point)
    (epsilon : ℚ) (h : points.length ≤ 2) :
    dpFuel d sq fuel points epsilon = some points := by
  cases fuel with
  | zero => rw [dpFuel, if_pos h]
  | succ fuel => rw [dpFuel, if_pos h]

/-- Unfolding equation of the recursive Douglas-Peucker case. -/
theorem dpFuel_succ_eq (d : Dist) (sq : Sqrt) (fuel : ℕ) (points : List Point)
    (epsilon : ℚ) (h : ¬ points.length ≤ 2) :
    dpFuel d sq (fuel + 1) points epsilon =
      (if epsilon < (findMaxFrom
          (fun p => perpendicular_distance d sq p (points.headD (0, 0))
            (points.getLastD (0, 0))) 1 (0, 0) ((points.drop 1).dropLast)).1 then
        match dpFuel d sq fuel (points.take ((findMaxFrom
              (fun p => perpendicular_distance d sq p (points.headD (0, 0))
                (points.getLastD (0, 0))) 1 (0, 0)
              ((points.drop 1).dropLast)).2 + 1)) epsilon,
            dpFuel d sq fuel (points.drop (findMaxFrom
              (fun p => perpendicular_distance d sq p (points.headD (0, 0))
                (points.getLastD (0, 0))) 1 (0, 0)
              ((points.drop 1).dropLast)).2) epsilon with
        | some left, some right => some (left.dropLast ++ right)
        | _, _ => none
      else some [points.headD (0, 0), points.getLastD (0, 0)]) := by
  rw [dpFuel, if_neg h]

/-- Structural facts about any successful Douglas-Peucker run: an input of
length at least two keeps at least two points, the endpoints are preserved,
and the output is an order-preserving subsequence of the input. -/
theorem dpFuel_spec (d : Dist) (sq : Sqrt) :
    ∀ (fuel : ℕ) (points : List Point) (epsilon : ℚ) (out : List Point),
      dpFuel d sq fuel points epsilon = some out →
      (2 ≤ points.length → 2 ≤ out.length) ∧
      out.head? = points.head? ∧ out.getLast? = points.getLast? ∧
      List.Sublist out points := by
  intro fuel
  induction fuel with
  | zero =>
    intro points epsilon out h
    rw [dpFuel] at h
    split at h
    · obtain rfl := Option.some_inj.mp h
      exact ⟨fun h2 => h2, rfl, rfl, List.Sublist.refl _⟩
    · exact absurd h (by simp)
  | succ fuel ih =>
    intro points epsilon out h
    by_cases hlen : points.length ≤ 2
    · rw [dpFuel_le_two d sq _ _ _ hlen] at h
      obtain rfl := Option.some_inj.mp h
      exact ⟨fun h2 => h2, rfl, rfl, List.Sublist.refl _⟩
    · rw [dpFuel_succ_eq d sq fuel points epsilon hlen] at h
      have h3 : 3 ≤ points.length := by omega
      have hne : points ≠ [] := by
        intro h0
        rw [h0] at h3
        simp at h3
      set pd := fun p => perpendicular_distance d sq p (points.headD (0, 0))
        (points.getLastD (0, 0)) with hpd
      set mid := (points.drop 1).dropLast with hmid
      set F := findMaxFrom pd 1 (0, 0) mid with hF
      by_cases hsp : epsilon < F.1
      · rw [if_pos hsp] at h
        cases hL : dpFuel d sq fuel (points.take (F.2 + 1)) epsilon with
        | none =>
          cases hR : dpFuel d sq fuel (points.drop F.2) epsilon with
          | none => rw [hL, hR] at h; simp at h
          | some right => rw [hL, hR] at h; simp at h
        | some left =>
          cases hR : dpFuel d sq fuel (points.drop F.2) epsilon with
          | none => rw [hL, hR] at h; simp at h
          | some right =>
            rw [hL, hR] at h
            have hout : left.dropLast ++ right = out := by simpa using h
            subst hout
            rcases findMaxFrom_char pd mid 1 0 0 with ⟨hcA, _⟩ |
              ⟨l₁, x, l₂, hmidsplit, hres, hpos, hA, hB⟩
            · -- split index 0: the left half is a singleton, the right half
              -- is the whole list at lower fuel
              have hF0 : F = (0, 0) := hF.trans hcA
              have hL1 : points.take (F.2 + 1) = [points.headD (0, 0)] := by
                rw [hF0]
                exact take_one_ne_nil points hne
              have hleft : left = [points.headD (0, 0)] := by
                have h5 := dpFuel_le_two d sq fuel (points.take (F.2 + 1))
                  epsilon (by rw [hL1]; simp)
                rw [hL] at h5
                have h6 := Option.some_inj.mp h5
                rw [h6, hL1]
              have hdrop0 : points.drop F.2 = points := by rw [hF0]; rfl
              rw [hdrop0] at hR
              obtain ⟨ihlen, ihhead, ihlast, ihsub⟩ := ih points epsilon right hR
              rw [hleft]
              simp only [List.dropLast_single, List.nil_append]
              exact ⟨ihlen, ihhead, ihlast, ihsub⟩
            · -- proper split at index F.2 = 1 + l₁.length
              have hF2 : F = (pd x, 1 + l₁.length) := hF.trans hres
              have hmlen : mid.length = points.length - 2 := mid_length points
              have hidx_le : F.2 ≤ points.length - 2 := by
                have hsl : mid.length = l₁.length + (l₂.length + 1) := by
                  rw [hmidsplit]
                  simp [List.length_append]
                rw [hF2]
                omega
              have hidx_lt : F.2 < points.length := by omega
              have hidx_pos : 1 ≤ F.2 := by rw [hF2]; omega
              have hlenT : (points.take (F.2 + 1)).length = F.2 + 1 := by
                rw [List.length_take]
                omega
              have hlenR : (points.drop F.2).length = points.length - F.2 :=
                List.length_drop _ _
              obtain ⟨ihLlen, ihLhead, ihLlast, ihLsub⟩ := ih _ epsilon left hL
              obtain ⟨ihRlen, ihRhead, ihRlast, ihRsub⟩ := ih _ epsilon right hR
              have hleft2 : 2 ≤ left.length := ihLlen (by omega)
              have hright2 : 2 ≤ right.length := ihRlen (by omega)
              have hldne : left.dropLast ≠ [] := by
                intro h0
                have hd := List.length_dropLast left
                rw [h0] at hd
                simp at hd
                omega
              have hrne : right ≠ [] := by
                intro h0
                rw [h0] at hright2
                simp at hright2
              refine ⟨?_, ?_, ?_, ?_⟩
              · intro _
                rw [List.length_append, List.length_dropLast]
                omega
              · rw [head?_append_ne _ _ hldne,
                  head?_dropLast_of_two left hleft2, ihLhead,
                  head?_take_pos points (F.2 + 1) (by omega)]
              · rw [getLast?_append_ne _ _ hrne, ihRlast,
                  getLast?_drop_of_lt points F.2 hidx_lt]
              · have hTin : points.take (F.2 + 1) =
                    points.take F.2 ++ [points[F.2]] := by
                  rw [List.take_succ, List.getElem?_eq_getElem hidx_lt]
                  rfl
                have hlne : left ≠ [] := by
                  intro h0
                  rw [h0] at hleft2
                  simp at hleft2
                have hllast : left.getLast? = some points[F.2] := by
                  rw [ihLlast, hTin, List.getLast?_concat]
                have h2 : left.getLast hlne = points[F.2] := by
                  have h1 := List.getLast?_eq_getLast left hlne
                  rw [h1] at hllast
                  exact Option.some_inj.mp hllast
                have hleq : left.dropLast ++ [points[F.2]] = left := by
                  rw [← h2]
                  exact List.dropLast_append_getLast hlne
                have hsubL : List.Sublist left.dropLast (points.take F.2) := by
                  have hstep : List.Sublist (left.dropLast ++ [points[F.2]])
                      (points.take F.2 ++ [points[F.2]]) := by
                    rw [hleq, ← hTin]
                    exact ihLsub
                  exact sublist_cancel_concat hstep
                have hfinal : List.Sublist (left.dropLast ++ right)
                    (points.take F.2 ++ points.drop F.2) :=
                  List.Sublist.append hsubL ihRsub
                rwa [List.take_append_drop] at hfinal
      · rw [if_neg hsp] at h
        have hout : [points.headD (0, 0), points.getLastD (0, 0)] = out :=
          Option.some_inj.mp h
        subst hout
        refine ⟨fun _ => by simp, ?_, ?_, ?_⟩
        · rw [head?_eq_some_headD points hne]
          rfl
        · rw [getLast?_eq_some_getLastD points hne]
          simp
        · have hdec := decomp3 points h3
          have hsub : List.Sublist
              [points.headD (0, 0), points.getLastD (0, 0)]
              (points.headD (0, 0) :: (mid ++ [points.getLastD (0, 0)])) :=
            List.cons_sublist_cons.mpr
              (List.sublist_append_right mid [points.getLastD (0, 0)])
          rw [← hmid] at hdec
          rw [← hdec] at hsub
          exact hsub

/-- More fuel never changes a successful Douglas-Peucker run. -/
theorem dpFuel_mono (d : Dist) (sq : Sqrt) :
    ∀ (fuel₁ fuel₂ : ℕ) (points : List Point) (epsilon : ℚ) (out : List Point),
      fuel₁ ≤ fuel₂ → dpFuel d sq fuel₁ points epsilon = some out →
      dpFuel d sq fuel₂ points epsilon = some out := by
  intro fuel₁
  induction fuel₁ with
  | zero =>
    intro fuel₂ points epsilon out _ h
    rw [dpFuel] at h
    split at h
    · obtain rfl := Option.some_inj.mp h
      exact dpFuel_le_two d sq fuel₂ points epsilon (by assumption)
    · exact absurd h (by simp)
  | succ fuel₁ ih =>
    intro fuel₂ points epsilon out hle h
    by_cases hlen : points.length ≤ 2
    · rw [dpFuel_le_two d sq _ _ _ hlen] at h
      obtain rfl := Option.some_inj.mp h
      exact dpFuel_le_two d sq fuel₂ points epsilon hlen
    · obtain ⟨fuel₂', rfl⟩ : ∃ k, fuel₂ = k + 1 := ⟨fuel₂ - 1, by omega⟩
      rw [dpFuel_succ_eq d sq fuel₁ points epsilon hlen] at h
      rw [dpFuel_succ_eq d sq fuel₂' points epsilon hlen]
      set pd := fun p => perpendicular_distance d sq p (points.headD (0, 0))
        (points.getLastD (0, 0)) with hpd
      set mid := (points.drop 1).dropLast with hmid
      set F := findMaxFrom pd 1 (0, 0) mid with hF
      by_cases hsp : epsilon < F.1
      · rw [if_pos hsp] at h ⊢
        cases hL : dpFuel d sq fuel₁ (points.take (F.2 + 1)) epsilon with
        | none =>
          cases hR : dpFuel d sq fuel₁ (points.drop F.2) epsilon with
          | none => rw [hL, hR] at h; simp at h
          | some right => rw [hL, hR] at h; simp at h
        | some left =>
          cases hR : dpFuel d sq fuel₁ (points.drop F.2) epsilon with
          | none => rw [hL, hR] at h; simp at h
          | some right =>
            rw [hL, hR] at h
            rw [ih fuel₂' _ epsilon left (by omega) hL,
              ih fuel₂' _ epsilon right (by omega) hR]
            exact h
      · rw [if_neg hsp] at h ⊢
        exact h

/-- With `epsilon ≥ 0` and fuel at least the input length, the
Douglas-Peucker recursion terminates with a value. -/
theorem dpFuel_isSome (d : Dist) (sq : Sqrt) :
    ∀ (fuel : ℕ) (points : List Point) (epsilon : ℚ),
      0 ≤ epsilon → points.length ≤ fuel →
      ∃ out, dpFuel d sq fuel points epsilon = some out := by
  intro fuel
  induction fuel with
  | zero =>
    intro points epsilon _ hl
    exact ⟨points, dpFuel_le_two d sq 0 points epsilon (by omega)⟩
  | succ fuel ih =>
    intro points epsilon heps hl
    by_cases hlen : points.length ≤ 2
    · exact ⟨points, dpFuel_le_two d sq _ points epsilon hlen⟩
    · rw [dpFuel_succ_eq d sq fuel points epsilon hlen]
      have h3 : 3 ≤ points.length := by omega
      set pd := fun p => perpendicular_distance d sq p (points.headD (0, 0))
        (points.getLastD (0, 0)) with hpd
      set mid := (points.drop 1).dropLast with hmid
      set F := findMaxFrom pd 1 (0, 0) mid with hF
      by_cases hsp : epsilon < F.1
      · rw [if_pos hsp]
        rcases findMaxFrom_char pd mid 1 0 0 with ⟨hcA, _⟩ |
          ⟨l₁, x, l₂, hmidsplit, hres, hpos, hA, hB⟩
        · exfalso
          have hF0 : F = (0, 0) := hF.trans hcA
          rw [hF0] at hsp
          exact absurd (lt_of_le_of_lt heps hsp) (lt_irrefl 0)
        · have hF2 : F = (pd x, 1 + l₁.length) := hF.trans hres
          have hmlen : mid.length = points.length - 2 := mid_length points
          have hsl : mid.length = l₁.length + (l₂.length + 1) := by
            rw [hmidsplit]
            simp [List.length_append]
          have hidx : 1 ≤ F.2 ∧ F.2 ≤ points.length - 2 := by
            rw [hF2]
            constructor
            · omega
            · simp only []
              omega
          obtain ⟨left, hL⟩ := ih (points.take (F.2 + 1)) epsilon heps
            (by rw [List.length_take]; omega)
          obtain ⟨right, hR⟩ := ih (points.drop F.2) epsilon heps
            (by rw [List.length_drop]; omega)
          refine ⟨left.dropLast ++ right, ?_⟩
          rw [hL, hR]
      · rw [if_neg hsp]
        exact ⟨_, rfl⟩

/-- Take of a head-interior-junction decomposition. -/
theorem take_two_level (p0 x : Point) (l₁ rest : List Point) :
    (p0 :: (l₁ ++ x :: rest)).take (l₁.length + 2) = p0 :: (l₁ ++ [x]) := by
  have h1 : l₁.length + 2 = (l₁.length + 1) + 1 := by omega
  rw [h1, List.take_succ_cons]
  have h2 : l₁.length + 1 = l₁.length + 1 := rfl
  rw [List.take_append]
  rfl

/-- Drop of a head-interior-junction decomposition. -/
theorem drop_two_level (p0 x : Point) (l₁ rest : List Point) :
    (p0 :: (l₁ ++ x :: rest)).drop (l₁.length + 1) = x :: rest := by
  rw [List.drop_succ_cons, List.drop_left]

/-- A nonempty-before-and-after list that is a sublist of `a :: (M ++ [b])`,
starts with `a` and ends with `b` decomposes as `a :: (m ++ [b])` with its
interior a sublist of `M`. -/
theorem sandwich (out M : List Point) (a b : Point)
    (h2 : 2 ≤ out.length) (hh : out.head? = some a) (hl : out.getLast? = some b)
    (hs : List.Sublist out (a :: (M ++ [b]))) :
    ∃ m, out = a :: (m ++ [b]) ∧ List.Sublist m M := by
  cases out with
  | nil => simp at h2
  | cons a' t =>
    have ha : a' = a := by
      simp only [List.head?_cons] at hh
      exact Option.some_inj.mp hh
    subst ha
    have htne : t ≠ [] := by
      intro h0
      rw [h0] at h2
      simp at h2
    have htl : t.getLast? = some b := by
      rw [getLast?_cons_ne _ _ htne] at hl
      exact hl
    have hgl : t.getLast htne = b := by
      have := List.getLast?_eq_getLast t htne
      rw [this] at htl
      exact Option.some_inj.mp htl
    have hteq : t.dropLast ++ [b] = t := by
      rw [← hgl]
      exact List.dropLast_append_getLast htne
    have hts : List.Sublist t (M ++ [b]) := List.cons_sublist_cons.mp hs
    have hmsub : List.Sublist t.dropLast M := by
      apply sublist_cancel_concat
      rw [hteq]
      exact hts
    exact ⟨t.dropLast, by rw [hteq], hmsub⟩

/-- Stability of Douglas-Peucker outputs: rerunning the recursion on a
successful output (with fuel its own length) reproduces it unchanged.  The
rerun recomputes the same chord, the retained split point is still the first
strict maximum among the survivors, so the recursion splits at the same
place and reduces to the two halves, which are stable by induction. -/
theorem dpFuel_stable (d : Dist) (sq : Sqrt) :
    ∀ (fuel : ℕ) (points : List Point) (epsilon : ℚ) (out : List Point),
      dpFuel d sq fuel points epsilon = some out →
      dpFuel d sq out.length out epsilon = some out := by
  intro fuel
  induction fuel with
  | zero =>
    intro points epsilon out h
    rw [dpFuel] at h
    split at h
    next hcond =>
      obtain rfl := Option.some_inj.mp h
      exact dpFuel_le_two d sq _ _ _ hcond
    next => exact absurd h (by simp)
  | succ fuel ih =>
    intro points epsilon out h
    by_cases hlen : points.length ≤ 2
    · rw [dpFuel_le_two d sq _ _ _ hlen] at h
      obtain rfl := Option.some_inj.mp h
      exact dpFuel_le_two d sq _ _ _ hlen
    · rw [dpFuel_succ_eq d sq fuel points epsilon hlen] at h
      have h3 : 3 ≤ points.length := by omega
      have hne : points ≠ [] := by
        intro h0
        rw [h0] at h3
        simp at h3
      set pd := fun p => perpendicular_distance d sq p (points.headD (0, 0))
        (points.getLastD (0, 0)) with hpd
      set mid := (points.drop 1).dropLast with hmid
      set F := findMaxFrom pd 1 (0, 0) mid with hF
      by_cases hsp : epsilon < F.1
      · rw [if_pos hsp] at h
        cases hL : dpFuel d sq fuel (points.take (F.2 + 1)) epsilon with
        | none =>
          cases hR : dpFuel d sq fuel (points.drop F.2) epsilon with
          | none => rw [hL, hR] at h; simp at h
          | some right => rw [hL, hR] at h; simp at h
        | some left =>
          cases hR : dpFuel d sq fuel (points.drop F.2) epsilon with
          | none => rw [hL, hR] at h; simp at h
          | some right =>
            rw [hL, hR] at h
            have hout : left.dropLast ++ right = out := by simpa using h
            subst hout
            rcases findMaxFrom_char pd mid 1 0 0 with ⟨hcA, _⟩ |
              ⟨l₁, x, l₂, hmidsplit, hres, hpos, hA, hB⟩
            · -- split index 0: the output is the whole-list rerun at lower
              -- fuel, stable by induction
              have hF0 : F = (0, 0) := hF.trans hcA
              have hL1 : points.take (F.2 + 1) = [points.headD (0, 0)] := by
                rw [hF0]
                exact take_one_ne_nil points hne
              have hleft : left = [points.headD (0, 0)] := by
                have h5 := dpFuel_le_two d sq fuel (points.take (F.2 + 1))
                  epsilon (by rw [hL1]; simp)
                rw [hL] at h5
                have h6 := Option.some_inj.mp h5
                rw [h6, hL1]
              have hdrop0 : points.drop F.2 = points := by rw [hF0]; rfl
              rw [hdrop0] at hR
              rw [hleft]
              simp only [List.dropLast_single, List.nil_append]
              exact ih points epsilon right hR
            · -- proper split: the rerun splits at the same retained point
              have hF2 : F = (pd x, 1 + l₁.length) := hF.trans hres
              have hF2n : F.2 = l₁.length + 1 := by
                rw [hF2]
                show 1 + l₁.length = l₁.length + 1
                omega
              have hptsEq : points = points.headD (0, 0) ::
                  (l₁ ++ x :: (l₂ ++ [points.getLastD (0, 0)])) := by
                conv_lhs => rw [decomp3 points h3]
                rw [← hmid, hmidsplit]
                simp
              have hTin : points.take (F.2 + 1) =
                  points.headD (0, 0) :: (l₁ ++ [x]) := by
                rw [hF2n]
                conv_lhs => rw [hptsEq]
                have h9 : l₁.length + 1 + 1 = l₁.length + 2 := by omega
                rw [h9]
                exact take_two_level _ _ _ _
              have hRin : points.drop F.2 =
                  x :: (l₂ ++ [points.getLastD (0, 0)]) := by
                rw [hF2n]
                conv_lhs => rw [hptsEq]
                exact drop_two_level _ _ _ _
              obtain ⟨spLlen, spLhead, spLlast, spLsub⟩ :=
                dpFuel_spec d sq fuel _ epsilon left hL
              obtain ⟨spRlen, spRhead, spRlast, spRsub⟩ :=
                dpFuel_spec d sq fuel _ epsilon right hR
              have hleft2 : 2 ≤ left.length := spLlen (by
                rw [hTin, List.length_cons, List.length_append,
                  List.length_singleton]
                omega)
              have hright2 : 2 ≤ right.length := spRlen (by
                rw [hRin, List.length_cons, List.length_append,
                  List.length_singleton]
                omega)
              have hLhead : left.head? = some (points.headD (0, 0)) := by
                rw [spLhead, hTin]
                rfl
              have hLlast : left.getLast? = some x := by
                rw [spLlast, hTin, getLast?_cons_ne _ _ (by simp),
                  List.getLast?_concat]
              have hLsub : List.Sublist left
                  (points.headD (0, 0) :: (l₁ ++ [x])) := by
                rw [← hTin]
                exact spLsub
              obtain ⟨Lmid, hleftEq, hLmid⟩ :=
                sandwich left l₁ (points.headD (0, 0)) x hleft2 hLhead
                  hLlast hLsub
              have hRhead : right.head? = some x := by
                rw [spRhead, hRin]
                rfl
              have hRlast : right.getLast? =
                  some (points.getLastD (0, 0)) := by
                rw [spRlast, hRin, getLast?_cons_ne _ _ (by simp),
                  List.getLast?_concat]
              have hRsub : List.Sublist right
                  (x :: (l₂ ++ [points.getLastD (0, 0)])) := by
                rw [← hRin]
                exact spRsub
              obtain ⟨Rmid, hrightEq, hRmid⟩ :=
                sandwich right l₂ x (points.getLastD (0, 0)) hright2 hRhead
                  hRlast hRsub
              have hdl : left.dropLast = points.headD (0, 0) :: Lmid := by
                rw [hleftEq, ← List.cons_append, List.dropLast_concat]
              rw [hdl, hrightEq, List.cons_append]
              -- the rerun list, its length and its interior
              have hOlen : (points.headD (0, 0) :: (Lmid ++ x ::
                  (Rmid ++ [points.getLastD (0, 0)]))).length =
                  (Lmid.length + Rmid.length + 2) + 1 := by
                simp only [List.length_cons, List.length_append,
                  List.length_singleton, List.length_nil]
                omega
              rw [hOlen]
              have hnot2 : ¬ (points.headD (0, 0) :: (Lmid ++ x ::
                  (Rmid ++ [points.getLastD (0, 0)]))).length ≤ 2 := by
                rw [hOlen]
                omega
              rw [dpFuel_succ_eq d sq (Lmid.length + Rmid.length + 2) _
                epsilon hnot2]
              have hglast : (points.headD (0, 0) :: (Lmid ++ x ::
                  (Rmid ++ [points.getLastD (0, 0)]))).getLastD (0, 0) =
                  points.getLastD (0, 0) := by
                rw [List.getLastD_eq_getLast?]
                have hsh : points.headD (0, 0) :: (Lmid ++ x ::
                    (Rmid ++ [points.getLastD (0, 0)])) =
                    (points.headD (0, 0) :: (Lmid ++ x :: Rmid)) ++
                      [points.getLastD (0, 0)] := by
                  simp
                rw [hsh, List.getLast?_concat]
                rfl
              have hhd : (points.headD (0, 0) :: (Lmid ++ x ::
                  (Rmid ++ [points.getLastD (0, 0)]))).headD (0, 0) =
                  points.headD (0, 0) := rfl
              have hinterior : ((points.headD (0, 0) :: (Lmid ++ x ::
                  (Rmid ++ [points.getLastD (0, 0)]))).drop 1).dropLast =
                  Lmid ++ x :: Rmid := by
                show (Lmid ++ x ::
                  (Rmid ++ [points.getLastD (0, 0)])).dropLast =
                  Lmid ++ x :: Rmid
                have hsh : Lmid ++ x :: (Rmid ++ [points.getLastD (0, 0)]) =
                    (Lmid ++ x :: Rmid) ++ [points.getLastD (0, 0)] := by
                  simp
                rw [hsh, List.dropLast_concat]
              rw [hglast, hhd, hinterior, ← hpd]
              have hA2 : ∀ y ∈ Lmid, pd y < pd x :=
                fun y hy => hA y (hLmid.subset hy)
              have hB2 : ∀ y ∈ Rmid, pd y ≤ pd x :=
                fun y hy => hB y (hRmid.subset hy)
              rw [findMaxFrom_first_max pd Lmid Rmid x 1 (0, 0) hpos hA2 hB2]
              have hsp2 : epsilon < ((pd x, 1 + Lmid.length) : ℚ × ℕ).1 := by
                rw [hF2] at hsp
                exact hsp
              rw [if_pos hsp2]
              have hp2 : ((pd x, 1 + Lmid.length) : ℚ × ℕ).2 =
                  Lmid.length + 1 := by
                show 1 + Lmid.length = Lmid.length + 1
                omega
              rw [hp2]
              have htk : (points.headD (0, 0) :: (Lmid ++ x ::
                  (Rmid ++ [points.getLastD (0, 0)]))).take
                    (Lmid.length + 1 + 1) =
                  points.headD (0, 0) :: (Lmid ++ [x]) := by
                have h9 : Lmid.length + 1 + 1 = Lmid.length + 2 := by omega
                rw [h9]
                exact take_two_level _ _ _ _
              have hdr : (points.headD (0, 0) :: (Lmid ++ x ::
                  (Rmid ++ [points.getLastD (0, 0)]))).drop
                    (Lmid.length + 1) =
                  x :: (Rmid ++ [points.getLastD (0, 0)]) :=
                drop_two_level _ _ _ _
              rw [htk, hdr, ← hleftEq, ← hrightEq]
              have hstabL : dpFuel d sq (Lmid.length + Rmid.length + 2) left
                  epsilon = some left :=
                dpFuel_mono d sq left.length (Lmid.length + Rmid.length + 2)
                  left epsilon left
                  (by
                    rw [hleftEq, List.length_cons, List.length_append,
                      List.length_singleton]
                    omega)
                  (ih _ epsilon left hL)
              have hstabR : dpFuel d sq (Lmid.length + Rmid.length + 2) right
                  epsilon = some right :=
                dpFuel_mono d sq right.length (Lmid.length + Rmid.length + 2)
                  right epsilon right
                  (by
                    rw [hrightEq, List.length_cons, List.length_append,
                      List.length_singleton]
                    omega)
                  (ih _ epsilon right hR)
              rw [hstabL, hstabR]
              show some (left.dropLast ++ right) =
                some (points.headD (0, 0) :: (Lmid ++ right))
              rw [hdl, List.cons_append]
      · rw [if_neg hsp] at h
        have hout := Option.some_inj.mp h
        subst hout
        exact dpFuel_le_two d sq _ _ _ (by simp)

/-- A smaller epsilon retains at least as many points: the max-scan does not
depend on epsilon, so the two runs split at the same indices, and a split
(at least three points) always beats a collapse (exactly two). -/
theorem dpFuel_length_antitone (d : Dist) (sq : Sqrt) :
    ∀ (fuel : ℕ) (points : List Point) (e₁ e₂ : ℚ) (o₁ o₂ : List Point),
      e₁ ≤ e₂ →
      dpFuel d sq fuel points e₁ = some o₁ →
      dpFuel d sq fuel points e₂ = some o₂ →
      o₂.length ≤ o₁.length := by
  intro fuel
  induction fuel with
  | zero =>
    intro points e₁ e₂ o₁ o₂ _ h₁ h₂
    rw [dpFuel] at h₁ h₂
    by_cases hc : points.length ≤ 2
    · rw [if_pos hc] at h₁ h₂
      obtain rfl := Option.some_inj.mp h₁
      obtain rfl := Option.some_inj.mp h₂
      exact le_refl _
    · rw [if_neg hc] at h₁
      exact absurd h₁ (by simp)
  | succ fuel ih =>
    intro points e₁ e₂ o₁ o₂ hee h₁ h₂
    by_cases hlen : points.length ≤ 2
    · rw [dpFuel_le_two d sq _ _ _ hlen] at h₁ h₂
      obtain rfl := Option.some_inj.mp h₁
      obtain rfl := Option.some_inj.mp h₂
      exact le_refl _
    · rw [dpFuel_succ_eq d sq fuel points e₁ hlen] at h₁
      rw [dpFuel_succ_eq d sq fuel points e₂ hlen] at h₂
      have h3 : 3 ≤ points.length := by omega
      set pd := fun p => perpendicular_distance d sq p (points.headD (0, 0))
        (points.getLastD (0, 0)) with hpd
      set mid := (points.drop 1).dropLast with hmid
      set F := findMaxFrom pd 1 (0, 0) mid with hF
      by_cases hsp₂ : e₂ < F.1
      · -- both split at the same index
        have hsp₁ : e₁ < F.1 := lt_of_le_of_lt hee hsp₂
        rw [if_pos hsp₁] at h₁
        rw [if_pos hsp₂] at h₂
        cases hL₁ : dpFuel d sq fuel (points.take (F.2 + 1)) e₁ with
        | none =>
          cases hR₁ : dpFuel d sq fuel (points.drop F.2) e₁ with
          | none => rw [hL₁, hR₁] at h₁; simp at h₁
          | some r₁ => rw [hL₁, hR₁] at h₁; simp at h₁
        | some L₁ =>
          cases hR₁ : dpFuel d sq fuel (points.drop F.2) e₁ with
          | none => rw [hL₁, hR₁] at h₁; simp at h₁
          | some R₁ =>
            rw [hL₁, hR₁] at h₁
            cases hL₂ : dpFuel d sq fuel (points.take (F.2 + 1)) e₂ with
            | none =>
              cases hR₂ : dpFuel d sq fuel (points.drop F.2) e₂ with
              | none => rw [hL₂, hR₂] at h₂; simp at h₂
              | some r₂ => rw [hL₂, hR₂] at h₂; simp at h₂
            | some L₂ =>
              cases hR₂ : dpFuel d sq fuel (points.drop F.2) e₂ with
              | none => rw [hL₂, hR₂] at h₂; simp at h₂
              | some R₂ =>
                rw [hL₂, hR₂] at h₂
                have ho₁ : L₁.dropLast ++ R₁ = o₁ := by simpa using h₁
                have ho₂ : L₂.dropLast ++ R₂ = o₂ := by simpa using h₂
                subst ho₁
                subst ho₂
                have hLle := ih (points.take (F.2 + 1)) e₁ e₂ L₁ L₂ hee hL₁ hL₂
                have hRle := ih (points.drop F.2) e₁ e₂ R₁ R₂ hee hR₁ hR₂
                rw [List.length_append, List.length_append,
                  List.length_dropLast, List.length_dropLast]
                omega
      · -- the coarser run collapses to the two endpoints; the finer run
        -- keeps at least two points
        rw [if_neg hsp₂] at h₂
        obtain rfl := (Option.some_inj.mp h₂).symm
        have h₁len := (dpFuel_spec d sq (fuel + 1) points e₁ o₁ (by
          rw [dpFuel_succ_eq d sq fuel points e₁ hlen, ← hpd, ← hmid, ← hF]
          exact h₁)).1 (by omega)
        simp only [List.length_cons, List.length_nil]
        omega

/-- C5: the Curve Simplifier is idempotent at a fixed epsilon: whenever
`douglas_peucker_simplify` returns an output, applying it again to that
output with the same epsilon returns the output unchanged. -/
theorem douglas_peucker_idempotent (d : Dist) (sq : Sqrt)
    (points : List Point) (epsilon : ℚ) (out : List Point)
    (h : douglas_peucker_simplify d sq points epsilon = some out) :
    douglas_peucker_simplify d sq out epsilon = some out :=
  dpFuel_stable d sq points.length points epsilon out h

/-- Witness for C5: a three-point spike at epsilon `1` collapses to its two
endpoints, and simplifying that output again leaves it unchanged. -/
theorem douglas_peucker_idempotent_witness :
    douglas_peucker_simplify dEx sqEx
      [((0 : ℚ), (0 : ℚ)), (1, 1), (2, 0)] 1 =
      some [((0 : ℚ), (0 : ℚ)), (2, 0)] ∧
    douglas_peucker_simplify dEx sqEx [((0 : ℚ), (0 : ℚ)), (2, 0)] 1 =
      some [((0 : ℚ), (0 : ℚ)), (2, 0)] :=
  have hpd : perpendicular_distance dEx sqEx (1, 1) ((0 : ℚ), (0 : ℚ)) (2, 0)
      = 1 / 2 := by
    rw [perpendicular_distance, if_neg (by decide)]
    norm_num [sqEx]
  have hfm : findMaxFrom
      (fun p => perpendicular_distance dEx sqEx p ((0 : ℚ), (0 : ℚ)) (2, 0))
      1 (0, 0) [((1 : ℚ), (1 : ℚ))] = (1 / 2, 1) := by
    simp only [findMaxFrom, hpd]
    norm_num
  have h : douglas_peucker_simplify dEx sqEx
      [((0 : ℚ), (0 : ℚ)), (1, 1), (2, 0)] 1 =
      some [((0 : ℚ), (0 : ℚ)), (2, 0)] := by
    rw [douglas_peucker_simplify,
      show ([((0 : ℚ), (0 : ℚ)), (1, 1), (2, 0)] : List Point).length = 2 + 1
        from rfl,
      dpFuel_succ_eq dEx sqEx 2 _ 1 (by decide),
      show ([((0 : ℚ), (0 : ℚ)), (1, 1), (2, 0)] : List Point).headD (0, 0) =
        ((0 : ℚ), (0 : ℚ)) from rfl,
      show ([((0 : ℚ), (0 : ℚ)), (1, 1), (2, 0)] : List Point).getLastD (0, 0)
        = ((2 : ℚ), (0 : ℚ)) from rfl,
      show (([((0 : ℚ), (0 : ℚ)), (1, 1), (2, 0)] : List Point).drop
        1).dropLast = [((1 : ℚ), (1 : ℚ))] from rfl,
      hfm, if_neg (by norm_num)]
  ⟨h, douglas_peucker_idempotent dEx sqEx
    [((0 : ℚ), (0 : ℚ)), (1, 1), (2, 0)] 1
    [((0 : ℚ), (0 : ℚ)), (2, 0)] h⟩

/-- The level-to-epsilon map only produces nonnegative tolerances. -/
theorem levelEpsilon_nonneg (level : String) : 0 ≤ levelEpsilon level := by
  unfold levelEpsilon
  split_ifs <;> norm_num

/-- C6: on the same nonempty input, the pipeline's output point counts are
monotone in the optimization level — advanced ≥ medium ≥ basic — because the
level map is advanced < medium < basic in epsilon and a smaller epsilon
retains at least as many points. -/
theorem optimize_point_count_monotone_in_level (d : Dist) (ang : Angle)
    (sq : Sqrt) (sources : List (Except String (List Point)))
    (h : gatherPoints sources ≠ []) :
    ∃ a da m dm b db,
      optimize_route_advanced d ang sq sources "advanced" = .ok (a, da) ∧
      optimize_route_advanced d ang sq sources "medium" = .ok (m, dm) ∧
      optimize_route_advanced d ang sq sources "basic" = .ok (b, db) ∧
      b.length ≤ m.length ∧ m.length ≤ a.length := by
  have hni : (gatherPoints sources).isEmpty = false := by
    cases hgp : gatherPoints sources with
    | nil => exact absurd hgp h
    | cons a t => rfl
  set mid := (remove_backtracking d
    (clean_route_advanced d ang (gatherPoints sources) 15 160) 50).1 with hmid
  obtain ⟨oa, hoa⟩ := dpFuel_isSome d sq mid.length mid
    (levelEpsilon "advanced") (levelEpsilon_nonneg _) (le_refl _)
  obtain ⟨om, hom⟩ := dpFuel_isSome d sq mid.length mid
    (levelEpsilon "medium") (levelEpsilon_nonneg _) (le_refl _)
  obtain ⟨ob, hob⟩ := dpFuel_isSome d sq mid.length mid
    (levelEpsilon "basic") (levelEpsilon_nonneg _) (le_refl _)
  have hml : ob.length ≤ om.length :=
    dpFuel_length_antitone d sq mid.length mid (levelEpsilon "medium")
      (levelEpsilon "basic") om ob
      (by
        rw [levelEpsilon, levelEpsilon, if_neg (by decide), if_pos rfl,
          if_neg (by decide), if_neg (by decide)]
        norm_num) hom hob
  have ham : om.length ≤ oa.length :=
    dpFuel_length_antitone d sq mid.length mid (levelEpsilon "advanced")
      (levelEpsilon "medium") oa om
      (by
        rw [levelEpsilon, levelEpsilon, if_pos rfl, if_neg (by decide),
          if_pos rfl]
        norm_num) hoa hom
  refine ⟨oa, calculate_total_distance d oa, om, calculate_total_distance d om,
    ob, calculate_total_distance d ob, ?_, ?_, ?_, hml, ham⟩
  · simp only [optimize_route_advanced, hni, Bool.false_eq_true, if_false]
    rw [← hmid,
      show douglas_peucker_simplify d sq mid (levelEpsilon "advanced") =
        some oa from hoa]
  · simp only [optimize_route_advanced, hni, Bool.false_eq_true, if_false]
    rw [← hmid,
      show douglas_peucker_simplify d sq mid (levelEpsilon "medium") =
        some om from hom]
  · simp only [optimize_route_advanced, hni, Bool.false_eq_true, if_false]
    rw [← hmid,
      show douglas_peucker_simplify d sq mid (levelEpsilon "basic") =
        some ob from hob]

/-- Witness for C6 on a concrete single-source input. -/
theorem optimize_point_count_monotone_witness :
    gatherPoints [Except.ok [((0 : ℚ), (0 : ℚ))]] ≠ [] ∧
    (∃ a da m dm b db,
      optimize_route_advanced dEx angEx sqEx [Except.ok [((0 : ℚ), (0 : ℚ))]]
        "advanced" = .ok (a, da) ∧
      optimize_route_advanced dEx angEx sqEx [Except.ok [((0 : ℚ), (0 : ℚ))]]
        "medium" = .ok (m, dm) ∧
      optimize_route_advanced dEx angEx sqEx [Except.ok [((0 : ℚ), (0 : ℚ))]]
        "basic" = .ok (b, db) ∧
      b.length ≤ m.length ∧ m.length ≤ a.length) :=
  ⟨by decide,
   optimize_point_count_monotone_in_level dEx angEx sqEx
     [Except.ok [((0 : ℚ), (0 : ℚ))]] (by decide)⟩

end RouteOptimizer
